import Mathlib

/-!
Verification of the image-viewer navigator logic of this repository.

The development shallowly embeds the state-holding logic of
`src/pictureQT.py` (class `ImageViewer`: the fields `files`, `index`,
`scale`, `fit_to_window`, `rotation_deg` and the methods acting on them)
and, where a claim cites them, the corresponding handlers of the
`src/main.py` variant.  File names are Lean `String`s; Python floats are
modelled exactly as rationals (`ℚ`); Python `int` is `ℤ`; Python's `%`
on integers agrees with Lean's `Int.emod` for a positive modulus, so `%`
is used directly.  Characters are treated as ASCII: `Char.isDigit`
models both `str.isdigit` and the regex class `\d` of the source, and
`Char.toLower` models `str.lower`.
-/

namespace Picture

abbrev Name := String

/-- One run produced by `re.split(r'(\d+)', name)` in `human_sort_key`
(`src/pictureQT.py` lines 43-46), after the per-run mapping: a digit run
becomes `int(t)` (a number), any other run becomes `t.lower()` (a string). -/
inductive KeyElem where
  | str : List Char → KeyElem
  | num : Nat → KeyElem
deriving DecidableEq

def KeyElem.isStr : KeyElem → Bool
  | .str _ => true
  | .num _ => false

/-- Step of the right fold that rebuilds `re.split(r'(\d+)', s)`:
the accumulator holds the leading non-digit run and the following
(digit run, non-digit run) blocks. -/
def stepSplit (c : Char) (acc : List Char × List (List Char × List Char)) :
    List Char × List (List Char × List Char) :=
  if c.isDigit then
    match acc with
    | ([], (d, n) :: ps) => ([], (c :: d, n) :: ps)
    | ([], []) => ([], [([c], [])])
    | (c0 :: n0, ps) => ([], ([c], c0 :: n0) :: ps)
  else (c :: acc.1, acc.2)

def splitD (s : List Char) : List Char × List (List Char × List Char) :=
  s.foldr stepSplit ([], [])

/-- The list of runs returned by `re.split(r'(\d+)', s)`: a possibly empty
non-digit run, then alternating (maximal, nonempty) digit runs and possibly
empty non-digit runs. -/
def piecesOf (s : List Char) : List (List Char) :=
  (splitD s).1 :: (splitD s).2.flatMap (fun p => [p.1, p.2])

/-- Python `t.isdigit()`: `t` is nonempty and all characters are digits. -/
def pyIsDigit (t : List Char) : Bool := !t.isEmpty && t.all Char.isDigit

/-- Python `int(t)` for a run of decimal digits. -/
def natOfDigits (t : List Char) : Nat := t.foldl (fun n c => 10 * n + (c.toNat - 48)) 0

/-- The per-run mapping of `human_sort_key`: `int(t) if t.isdigit() else t.lower()`. -/
def keyMapper (t : List Char) : KeyElem :=
  if pyIsDigit t then KeyElem.num (natOfDigits t) else KeyElem.str (t.map Char.toLower)

/-- `human_sort_key` (`src/pictureQT.py` lines 43-46):
`[int(t) if t.isdigit() else t.lower() for t in re.split(r'(\d+)', p.name)]`. -/
def human_sort_key (s : Name) : List KeyElem :=
  (piecesOf s.data).map keyMapper

/-- Three-way comparison on `Nat`, the order Python uses on the `int` runs. -/
def natCmp (m n : Nat) : Ordering :=
  if m < n then .lt else if n < m then .gt else .eq

/-- Three-way comparison on characters by code point, as Python compares
characters inside strings. -/
def charCmp (c d : Char) : Ordering := natCmp c.toNat d.toNat

/-- Lexicographic comparison of lists from a comparison of elements:
Python's sequence comparison (first differing position decides, a proper
leading subsequence compares less). -/
def lexCmp (cmp : α → α → Ordering) : List α → List α → Ordering
  | [], [] => .eq
  | [], _ :: _ => .lt
  | _ :: _, [] => .gt
  | a :: as, b :: bs =>
    match cmp a b with
    | .lt => .lt
    | .gt => .gt
    | .eq => lexCmp cmp as bs

/-- Comparison of key elements.  Between two keys produced by
`human_sort_key` the mixed `str`/`num` cases never arise at a common
position (see `key_alternates`); Python would raise `TypeError` there, and
this model picks a fixed answer to keep the comparison total. -/
def elemCmp : KeyElem → KeyElem → Ordering
  | .str a, .str b => lexCmp charCmp a b
  | .str _, .num _ => .lt
  | .num _, .str _ => .gt
  | .num m, .num n => natCmp m n

def keyCmp (k1 k2 : List KeyElem) : Ordering := lexCmp elemCmp k1 k2

/-- `k1 <= k2` on sort keys, as Python's `sorted` consults it. -/
def keyLeB (k1 k2 : List KeyElem) : Bool :=
  match keyCmp k1 k2 with
  | .gt => false
  | _ => true

/-- The ordering `sorted(..., key=human_sort_key)` imposes on file names. -/
def humanLe (a b : Name) : Bool := keyLeB (human_sort_key a) (human_sort_key b)

/-- `SUPPORTED_EXTS` (`src/pictureQT.py` line 41). -/
def SUPPORTED_EXTS : List String :=
  [".jpg", ".jpeg", ".png", ".bmp", ".gif", ".webp", ".tif", ".tiff"]

/-- `pathlib.PurePath.suffix`: the part of the name from its last dot,
provided that dot is neither the first nor the last character. -/
def pySuffix (s : Name) : String :=
  let cs := s.data
  let n := cs.length
  let afterDot := (cs.reverse.takeWhile (fun c => c ≠ '.')).reverse
  if afterDot.length = n then ""
  else
    let i := n - 1 - afterDot.length
    if 0 < i ∧ i < n - 1 then ⟨cs.drop i⟩ else ""

/-- Python `str.lower()` on an ASCII string. -/
def pyLower (s : String) : String := ⟨s.data.map Char.toLower⟩

/-- `p.suffix.lower() in SUPPORTED_EXTS` (`src/pictureQT.py` lines 316, 319). -/
def isSupported (p : Name) : Bool := SUPPORTED_EXTS.contains (pyLower (pySuffix p))

/-- Python `sorted(listing, key=human_sort_key)`.  Python's sort is stable,
and a stable sort by a total transitive `<=` is unique, so it is modelled by
the stable `List.insertionSort`. -/
def pySorted (listing : List Name) : List Name :=
  listing.insertionSort (fun a b => humanLe a b = true)

/-- Directory branch of `open_path` (`src/pictureQT.py` lines 314-317):
`[p for p in sorted(path.iterdir(), key=human_sort_key) if p.suffix.lower() in SUPPORTED_EXTS]`,
applied to the raw directory listing. -/
def loadDirectory (listing : List Name) : List Name :=
  (pySorted listing).filter isSupported

/-- File branch of `open_path` (`src/pictureQT.py` line 319): the list
`[p for p in [path] + list(Path(path.parent).iterdir()) if p.suffix.lower() in SUPPORTED_EXTS]`
handed to `load_files`, where `siblings` is the parent directory's listing. -/
def openExplicitFiles (path : Name) (siblings : List Name) : List Name :=
  ([path] ++ siblings).filter isSupported

/-- `load_files` file filter (`src/pictureQT.py` line 328) with an existence
oracle for `Path(f).exists()`, together with the index rule of line 329. -/
def load_files_list (present : Name → Bool) (files : List Name) : List Name :=
  files.filter present

/-- The navigator state held on the `ImageViewer` of `src/pictureQT.py`
(lines 137-141): `files`, `index`, `scale`, `fit_to_window`, `rotation_deg`. -/
structure QTState where
  files : List Name
  index : Int
  scale : ℚ
  fitToWindow : Bool
  rotationDeg : Int

/-- `show_current` (`src/pictureQT.py` lines 368-397) as a state
transformer: early return on an empty list; otherwise the index is clamped
into range, and when the image decodes (`decodeOk`, modelling
`not img.isNull()`) the scale is reset to `1.0`.  Rendering is a side
channel and `rotation_deg` is read but never written. -/
def show_current (decodeOk : Bool) (st : QTState) : QTState :=
  if st.files.isEmpty then st
  else if decodeOk then
    { st with index := max 0 (min st.index ((st.files.length : Int) - 1)), scale := 1 }
  else { st with index := max 0 (min st.index ((st.files.length : Int) - 1)) }

/-- `next_image` (`src/pictureQT.py` lines 432-436). -/
def next_image (decodeOk : Bool) (st : QTState) : QTState :=
  if st.files.isEmpty then st
  else show_current decodeOk { st with index := (st.index + 1) % (st.files.length : Int) }

/-- `prev_image` (`src/pictureQT.py` lines 426-430). -/
def prev_image (decodeOk : Bool) (st : QTState) : QTState :=
  if st.files.isEmpty then st
  else show_current decodeOk { st with index := (st.index - 1) % (st.files.length : Int) }

/-- `apply_zoom` (`src/pictureQT.py` lines 439-444): clears fit mode,
multiplies the scale by the factor and clamps it into `[0.05, 20.0]`. -/
def apply_zoom (factor : ℚ) (st : QTState) : QTState :=
  { st with fitToWindow := false, scale := max (1 / 20) (min (st.scale * factor) 20) }

/-- `toggle_fit` (`src/pictureQT.py` lines 452-455). -/
def toggle_fit (st : QTState) : QTState :=
  { st with fitToWindow := !st.fitToWindow }

/-- `rotate` (`src/pictureQT.py` lines 458-460):
`self.rotation_deg = (self.rotation_deg + deg) % 360`. -/
def rotate (deg : Int) (st : QTState) : QTState :=
  { st with rotationDeg := (st.rotationDeg + deg) % 360 }

/-- `after_delete` (`src/pictureQT.py` lines 530-535): pops the entry at
the current index, clamps the index against the shortened list, and
redisplays via `show_current`. -/
def after_delete (decodeOk : Bool) (st : QTState) : QTState :=
  show_current decodeOk
    { st with
      files := st.files.eraseIdx st.index.toNat
      index := max 0 (min st.index (((st.files.eraseIdx st.index.toNat).length : Int) - 1)) }

/-- The state of the `src/main.py` variant (`files`, `index`, `scale`);
it has no fit flag and no rotation. -/
structure GtkState where
  files : List Name
  index : Int
  scale : ℚ

/-- `on_fit` (`src/main.py` lines 320-322): `self.scale = 1.0` followed by a
redisplay that does not change the state. -/
def gtk_on_fit (st : GtkState) : GtkState := { st with scale := 1 }

/-- The fit computation in `show_image` (`src/main.py` lines 287-300):
`scale = min(area_w / img_w, area_h / img_h, 1.0)`. -/
def fitScale (areaW areaH imgW imgH : ℚ) : ℚ :=
  min (min (areaW / imgW) (areaH / imgH)) 1

lemma natCmp_eq_lt {m n : Nat} : natCmp m n = .lt ↔ m < n := by
  unfold natCmp; split_ifs <;> simp_all

lemma natCmp_eq_gt {m n : Nat} : natCmp m n = .gt ↔ n < m := by
  unfold natCmp; split_ifs <;> simp_all <;> omega

lemma natCmp_eq_eq {m n : Nat} : natCmp m n = .eq ↔ m = n := by
  unfold natCmp; split_ifs <;> simp_all <;> omega

lemma natCmp_swap (m n : Nat) : (natCmp m n).swap = natCmp n m := by
  unfold natCmp; split_ifs <;> simp_all [Ordering.swap] <;> omega

lemma natCmp_lt_trans {m n k : Nat} (h1 : natCmp m n = .lt) (h2 : natCmp n k = .lt) :
    natCmp m k = .lt := by
  rw [natCmp_eq_lt] at *; omega

lemma natCmp_eq_left {m n : Nat} (h : natCmp m n = .eq) (k : Nat) : natCmp m k = natCmp n k := by
  rw [natCmp_eq_eq] at h; rw [h]

lemma charCmp_swap (c d : Char) : (charCmp c d).swap = charCmp d c := natCmp_swap _ _

lemma charCmp_lt_trans {a b c : Char} (h1 : charCmp a b = .lt) (h2 : charCmp b c = .lt) :
    charCmp a c = .lt := natCmp_lt_trans h1 h2

lemma charCmp_eq_left {a b : Char} (h : charCmp a b = .eq) (c : Char) :
    charCmp a c = charCmp b c := natCmp_eq_left h _

lemma lexCmp_swap (cmp : α → α → Ordering) (hsym : ∀ a b, (cmp a b).swap = cmp b a) :
    ∀ l1 l2, (lexCmp cmp l1 l2).swap = lexCmp cmp l2 l1
  | [], [] => rfl
  | [], _ :: _ => rfl
  | _ :: _, [] => rfl
  | a :: as, b :: bs => by
    simp only [lexCmp]
    cases h : cmp a b <;> rw [← hsym a b, h] <;> simp [Ordering.swap]
    exact lexCmp_swap cmp hsym as bs

lemma lexCmp_cons_of_lt (cmp : α → α → Ordering) {a b : α} (as bs : List α)
    (h : cmp a b = .lt) : lexCmp cmp (a :: as) (b :: bs) = .lt := by
  simp [lexCmp, h]

lemma lexCmp_cons_of_gt (cmp : α → α → Ordering) {a b : α} (as bs : List α)
    (h : cmp a b = .gt) : lexCmp cmp (a :: as) (b :: bs) = .gt := by
  simp [lexCmp, h]

lemma lexCmp_cons_of_eq (cmp : α → α → Ordering) {a b : α} (as bs : List α)
    (h : cmp a b = .eq) : lexCmp cmp (a :: as) (b :: bs) = lexCmp cmp as bs := by
  simp [lexCmp, h]

lemma lexCmp_eq_left (cmp : α → α → Ordering)
    (heq : ∀ a b, cmp a b = .eq → ∀ x, cmp a x = cmp b x) :
    ∀ l1 l2, lexCmp cmp l1 l2 = .eq → ∀ l3, lexCmp cmp l1 l3 = lexCmp cmp l2 l3 := by
  intro l1
  induction l1 with
  | nil =>
    intro l2 h l3
    cases l2 with
    | nil => rfl
    | cons b bs => exact absurd h (by simp [lexCmp])
  | cons a as ih =>
    intro l2 h l3
    cases l2 with
    | nil => exact absurd h (by simp [lexCmp])
    | cons b bs =>
      cases hab : cmp a b
      · rw [lexCmp_cons_of_lt cmp as bs hab] at h; exact Ordering.noConfusion h
      · rw [lexCmp_cons_of_eq cmp as bs hab] at h
        cases l3 with
        | nil => rfl
        | cons c cs =>
          have habc : cmp a c = cmp b c := heq a b hab c
          cases hbc : cmp b c
          · rw [lexCmp_cons_of_lt cmp as cs (habc.trans hbc),
              lexCmp_cons_of_lt cmp bs cs hbc]
          · rw [lexCmp_cons_of_eq cmp as cs (habc.trans hbc),
              lexCmp_cons_of_eq cmp bs cs hbc]
            exact ih bs h cs
          · rw [lexCmp_cons_of_gt cmp as cs (habc.trans hbc),
              lexCmp_cons_of_gt cmp bs cs hbc]
      · rw [lexCmp_cons_of_gt cmp as bs hab] at h; exact Ordering.noConfusion h

lemma cmp_eq_right (cmp : α → α → Ordering) (hsym : ∀ a b, (cmp a b).swap = cmp b a)
    (heq : ∀ a b, cmp a b = .eq → ∀ x, cmp a x = cmp b x)
    {b c : α} (h : cmp b c = .eq) (a : α) : cmp a b = cmp a c := by
  have h2 : cmp b a = cmp c a := heq b c h a
  calc cmp a b = (cmp b a).swap := by rw [← hsym a b, Ordering.swap_swap]
    _ = (cmp c a).swap := by rw [h2]
    _ = cmp a c := hsym c a

lemma lexCmp_lt_trans (cmp : α → α → Ordering) (hsym : ∀ a b, (cmp a b).swap = cmp b a)
    (heq : ∀ a b, cmp a b = .eq → ∀ x, cmp a x = cmp b x)
    (hlt : ∀ a b c, cmp a b = .lt → cmp b c = .lt → cmp a c = .lt) :
    ∀ l1 l2 l3, lexCmp cmp l1 l2 = .lt → lexCmp cmp l2 l3 = .lt → lexCmp cmp l1 l3 = .lt := by
  intro l1
  induction l1 with
  | nil =>
    intro l2 l3 h12 h23
    cases l2 with
    | nil => exact absurd h12 (by simp [lexCmp])
    | cons b bs =>
      cases l3 with
      | nil => exact absurd h23 (by simp [lexCmp])
      | cons c cs => rfl
  | cons a as ih =>
    intro l2 l3 h12 h23
    cases l2 with
    | nil => exact absurd h12 (by simp [lexCmp])
    | cons b bs =>
      cases l3 with
      | nil => exact absurd h23 (by simp [lexCmp])
      | cons c cs =>
        cases hab : cmp a b
        · cases hbc : cmp b c
          · exact lexCmp_cons_of_lt cmp as cs (hlt a b c hab hbc)
          · have : cmp a c = .lt := by
              rw [← cmp_eq_right cmp hsym heq hbc a]; exact hab
            exact lexCmp_cons_of_lt cmp as cs this
          · rw [lexCmp_cons_of_gt cmp bs cs hbc] at h23
            exact Ordering.noConfusion h23
        · rw [lexCmp_cons_of_eq cmp as bs hab] at h12
          cases hbc : cmp b c
          · have : cmp a c = .lt := by rw [heq a b hab c]; exact hbc
            exact lexCmp_cons_of_lt cmp as cs this
          · have hac : cmp a c = .eq := by rw [heq a b hab c]; exact hbc
            rw [lexCmp_cons_of_eq cmp bs cs hbc] at h23
            rw [lexCmp_cons_of_eq cmp as cs hac]
            exact ih bs cs h12 h23
          · rw [lexCmp_cons_of_gt cmp bs cs hbc] at h23
            exact Ordering.noConfusion h23
        · rw [lexCmp_cons_of_gt cmp as bs hab] at h12
          exact Ordering.noConfusion h12

lemma elemCmp_swap (e1 e2 : KeyElem) : (elemCmp e1 e2).swap = elemCmp e2 e1 := by
  cases e1 <;> cases e2 <;> simp only [elemCmp]
  · exact lexCmp_swap charCmp charCmp_swap _ _
  · rfl
  · rfl
  · exact natCmp_swap _ _

lemma elemCmp_eq_left {e1 e2 : KeyElem} (h : elemCmp e1 e2 = .eq) (e3 : KeyElem) :
    elemCmp e1 e3 = elemCmp e2 e3 := by
  cases e1 <;> cases e2 <;> simp only [elemCmp] at h ⊢ <;> try exact absurd h (by simp)
  · cases e3 <;> simp only [elemCmp]
    exact lexCmp_eq_left charCmp (fun a b hab x => charCmp_eq_left hab x) _ _ h _
  · cases e3 <;> simp only [elemCmp]
    exact natCmp_eq_left h _

lemma elemCmp_lt_trans {e1 e2 e3 : KeyElem} (h1 : elemCmp e1 e2 = .lt)
    (h2 : elemCmp e2 e3 = .lt) : elemCmp e1 e3 = .lt := by
  cases e1 with
  | str a =>
    cases e3 with
    | num k => rfl
    | str c =>
      cases e2 with
      | num n => exact Ordering.noConfusion h2
      | str b =>
        exact lexCmp_lt_trans charCmp charCmp_swap (fun x y hxy z => charCmp_eq_left hxy z)
          (fun x y z hxy hyz => charCmp_lt_trans hxy hyz) _ _ _ h1 h2
  | num m =>
    cases e2 with
    | str b => exact Ordering.noConfusion h1
    | num n =>
      cases e3 with
      | str c => exact Ordering.noConfusion h2
      | num k => exact natCmp_lt_trans h1 h2

lemma keyCmp_swap (k1 k2 : List KeyElem) : (keyCmp k1 k2).swap = keyCmp k2 k1 :=
  lexCmp_swap elemCmp elemCmp_swap k1 k2

lemma keyCmp_eq_left {k1 k2 : List KeyElem} (h : keyCmp k1 k2 = .eq) (k3 : List KeyElem) :
    keyCmp k1 k3 = keyCmp k2 k3 :=
  lexCmp_eq_left elemCmp (fun a b hab x => elemCmp_eq_left hab x) k1 k2 h k3

lemma keyCmp_lt_trans {k1 k2 k3 : List KeyElem} (h1 : keyCmp k1 k2 = .lt)
    (h2 : keyCmp k2 k3 = .lt) : keyCmp k1 k3 = .lt :=
  lexCmp_lt_trans elemCmp elemCmp_swap (fun a b hab x => elemCmp_eq_left hab x)
    (fun _ _ _ hab hbc => elemCmp_lt_trans hab hbc) k1 k2 k3 h1 h2

lemma keyCmp_eq_right {k2 k3 : List KeyElem} (h : keyCmp k2 k3 = .eq) (k1 : List KeyElem) :
    keyCmp k1 k2 = keyCmp k1 k3 :=
  cmp_eq_right (lexCmp elemCmp) keyCmp_swap
    (fun a b hab x => keyCmp_eq_left hab x) h k1

/-- The characters of a non-digit run of the split. -/
def NoDigits (t : List Char) : Prop := ∀ c ∈ t, c.isDigit = false

/-- A digit run of the split: nonempty and all digits. -/
def AllDigits (t : List Char) : Prop := t ≠ [] ∧ ∀ c ∈ t, c.isDigit = true

/-- Invariant of the split accumulator: the leading run has no digits, and
every block holds a nonempty digit run followed by a digit-free run. -/
def GoodAcc (a : List Char × List (List Char × List Char)) : Prop :=
  NoDigits a.1 ∧ ∀ p ∈ a.2, AllDigits p.1 ∧ NoDigits p.2

lemma stepSplit_good {c : Char} {acc : List Char × List (List Char × List Char)}
    (h : GoodAcc acc) : GoodAcc (stepSplit c acc) := by
  obtain ⟨h1, h2⟩ := h
  obtain ⟨n0, ps⟩ := acc
  by_cases hc : c.isDigit
  · cases n0 with
    | nil =>
      cases ps with
      | nil =>
        simp only [stepSplit, hc, if_true]
        refine ⟨fun x hx => absurd hx (List.not_mem_nil x), fun p hp => ?_⟩
        rcases List.mem_singleton.mp hp with rfl
        exact ⟨⟨List.cons_ne_nil c [], fun x hx => by
          rcases List.mem_singleton.mp hx with rfl; exact hc⟩,
          fun x hx => absurd hx (List.not_mem_nil x)⟩
      | cons q qs =>
        obtain ⟨d, n⟩ := q
        simp only [stepSplit, hc, if_true]
        refine ⟨fun x hx => absurd hx (List.not_mem_nil x), fun p hp => ?_⟩
        rcases List.mem_cons.mp hp with rfl | hp'
        · obtain ⟨⟨_, hdall⟩, hn⟩ := h2 (d, n) (List.mem_cons_self _ _)
          refine ⟨⟨List.cons_ne_nil c d, fun x hx => ?_⟩, hn⟩
          rcases List.mem_cons.mp hx with rfl | hx'
          · exact hc
          · exact hdall x hx'
        · exact h2 p (List.mem_cons_of_mem _ hp')
    | cons c0 n0' =>
      simp only [stepSplit, hc, if_true]
      refine ⟨fun x hx => absurd hx (List.not_mem_nil x), fun p hp => ?_⟩
      rcases List.mem_cons.mp hp with rfl | hp'
      · exact ⟨⟨List.cons_ne_nil c [], fun x hx => by
          rcases List.mem_singleton.mp hx with rfl; exact hc⟩, h1⟩
      · exact h2 p hp'
  · simp only [stepSplit, hc, if_false]
    refine ⟨fun x hx => ?_, h2⟩
    rcases List.mem_cons.mp hx with rfl | hx'
    · exact Bool.of_not_eq_true hc
    · exact h1 x hx'

lemma splitD_good : ∀ s : List Char, GoodAcc (splitD s)
  | [] => ⟨fun x hx => absurd hx (List.not_mem_nil x), fun p hp => absurd hp (List.not_mem_nil p)⟩
  | c :: s => by
    rw [splitD, List.foldr_cons]
    exact stepSplit_good (splitD_good s)

lemma pyIsDigit_of_noDigits {t : List Char} (h : NoDigits t) : pyIsDigit t = false := by
  cases t with
  | nil => rfl
  | cons c cs => simp [pyIsDigit, h c (List.mem_cons_self c cs)]

lemma pyIsDigit_of_allDigits {t : List Char} (h : AllDigits t) : pyIsDigit t = true := by
  obtain ⟨hne, hall⟩ := h
  cases t with
  | nil => exact absurd rfl hne
  | cons c cs =>
    simp only [pyIsDigit, List.isEmpty_cons, Bool.not_false, List.all_cons, Bool.true_and,
      List.all_eq_true, Bool.and_eq_true]
    exact ⟨hall c (List.mem_cons_self c cs), fun x hx => hall x (List.mem_cons_of_mem c hx)⟩

/-- The key in terms of the split accumulator: a string element, then
alternating number and string elements. -/
def canonKey (n0 : List Char) (ps : List (List Char × List Char)) : List KeyElem :=
  KeyElem.str (n0.map Char.toLower) ::
    ps.flatMap (fun p => [KeyElem.num (natOfDigits p.1), KeyElem.str (p.2.map Char.toLower)])

lemma mapKey_pairs : ∀ ps : List (List Char × List Char),
    (∀ p ∈ ps, AllDigits p.1 ∧ NoDigits p.2) →
    (ps.flatMap (fun p => [p.1, p.2])).map keyMapper =
      ps.flatMap (fun p => [KeyElem.num (natOfDigits p.1), KeyElem.str (p.2.map Char.toLower)]) := by
  intro ps h
  induction ps with
  | nil => rfl
  | cons p ps ih =>
    obtain ⟨hd, hn⟩ := h p (List.mem_cons_self p ps)
    simp only [List.flatMap_cons, List.map_append, List.map_cons, List.map_nil]
    rw [show keyMapper p.1 = KeyElem.num (natOfDigits p.1) by
        unfold keyMapper; rw [pyIsDigit_of_allDigits hd]; rfl,
      show keyMapper p.2 = KeyElem.str (p.2.map Char.toLower) by
        unfold keyMapper; rw [pyIsDigit_of_noDigits hn]; rfl]
    rw [ih (fun q hq => h q (List.mem_cons_of_mem p hq))]

lemma key_eq_canon (s : Name) :
    human_sort_key s = canonKey (splitD s.data).1 (splitD s.data).2 := by
  obtain ⟨h1, h2⟩ := splitD_good s.data
  unfold human_sort_key piecesOf canonKey
  rw [List.map_cons]
  congr 1
  · unfold keyMapper
    rw [pyIsDigit_of_noDigits h1]
    rfl
  · exact mapKey_pairs _ h2

lemma canonKey_cons (n0 d n : List Char) (ps : List (List Char × List Char)) :
    canonKey n0 ((d, n) :: ps) =
      KeyElem.str (n0.map Char.toLower) :: KeyElem.num (natOfDigits d) :: canonKey n ps := by
  simp [canonKey, List.flatMap_cons]

lemma canonKey_get : ∀ (ps : List (List Char × List Char)) (n0 : List Char) (i : Nat)
    (h : i < (canonKey n0 ps).length),
    ((canonKey n0 ps).get ⟨i, h⟩).isStr = decide (i % 2 = 0) := by
  intro ps
  induction ps with
  | nil =>
    intro n0 i h
    simp only [canonKey, List.flatMap_nil, List.length_cons, List.length_nil] at h
    have hi : i = 0 := by omega
    subst hi
    rfl
  | cons p ps ih =>
    intro n0 i h
    obtain ⟨d, n⟩ := p
    revert h
    rw [canonKey_cons]
    intro h
    match i with
    | 0 => rfl
    | 1 => rfl
    | Nat.succ (Nat.succ i) =>
      rw [List.get_cons_succ, List.get_cons_succ]
      rw [ih n i _]
      congr 1
      rw [Nat.add_mod_right i 2]

lemma keyLeB_of_ne_gt {k1 k2 : List KeyElem} (h : keyCmp k1 k2 ≠ .gt) : keyLeB k1 k2 = true := by
  unfold keyLeB
  cases hc : keyCmp k1 k2
  · rfl
  · rfl
  · exact absurd hc h

lemma ne_gt_of_keyLeB {k1 k2 : List KeyElem} (h : keyLeB k1 k2 = true) : keyCmp k1 k2 ≠ .gt := by
  intro hg
  unfold keyLeB at h
  rw [hg] at h
  exact Bool.noConfusion h

lemma humanLe_total (a b : Name) : humanLe a b = true ∨ humanLe b a = true := by
  unfold humanLe
  cases h : keyCmp (human_sort_key a) (human_sort_key b)
  · exact Or.inl (keyLeB_of_ne_gt (by rw [h]; exact fun hc => Ordering.noConfusion hc))
  · exact Or.inl (keyLeB_of_ne_gt (by rw [h]; exact fun hc => Ordering.noConfusion hc))
  · refine Or.inr (keyLeB_of_ne_gt ?_)
    rw [← keyCmp_swap, h]
    exact fun hc => Ordering.noConfusion hc

lemma humanLe_trans (a b c : Name) (h1 : humanLe a b = true) (h2 : humanLe b c = true) :
    humanLe a c = true := by
  unfold humanLe at *
  have n1 := ne_gt_of_keyLeB h1
  have n2 := ne_gt_of_keyLeB h2
  apply keyLeB_of_ne_gt
  intro hg
  cases hab : keyCmp (human_sort_key a) (human_sort_key b) with
  | gt => exact n1 hab
  | eq => rw [keyCmp_eq_left hab] at hg; exact n2 hg
  | lt =>
    cases hbc : keyCmp (human_sort_key b) (human_sort_key c) with
    | gt => exact n2 hbc
    | eq =>
      rw [← keyCmp_eq_right hbc, hab] at hg
      exact Ordering.noConfusion hg
    | lt =>
      rw [keyCmp_lt_trans hab hbc] at hg
      exact Ordering.noConfusion hg

lemma wrap_prev_next (n i : Int) (hn : 0 < n) (h0 : 0 ≤ i) (h1 : i < n) :
    max 0 (min ((max 0 (min ((i + 1) % n) (n - 1)) - 1) % n) (n - 1)) = i := by
  have ha : 0 ≤ (i + 1) % n := Int.emod_nonneg _ (by omega)
  have hb : (i + 1) % n < n := Int.emod_lt_of_pos _ hn
  have hc : max 0 (min ((i + 1) % n) (n - 1)) = (i + 1) % n := by omega
  rw [hc]
  have hd : ((i + 1) % n - 1) % n = i := by
    rw [sub_eq_add_neg, Int.emod_add_emod]
    have he : i + 1 + -1 = i := by ring
    rw [he, Int.emod_eq_of_lt h0 h1]
  rw [hd]
  omega

/-- C1 (corrected): on a non-empty `ImageSet`, `next()`/`previous()` (via
`show_current`, decode succeeding) reset `scaleFactor` to `1.0`, but leave
`rotationDegrees` unchanged: `show_current` never writes `rotation_deg`, so
it persists across navigation rather than resetting to `0`. -/
theorem nav_resets_scale_not_rotation (st : QTState) (h : st.files ≠ []) :
    (next_image true st).scale = 1 ∧ (next_image true st).rotationDeg = st.rotationDeg ∧
    (prev_image true st).scale = 1 ∧ (prev_image true st).rotationDeg = st.rotationDeg := by
  have hne : st.files.isEmpty = false := List.isEmpty_eq_false.mpr h
  unfold next_image prev_image show_current
  simp [hne]

/-- C1 witness: the reset-and-preserve behaviour at a concrete two-image state. -/
theorem nav_resets_scale_not_rotation_w :
    (QTState.mk ["a.png", "b.png"] 0 2 false 90).files ≠ [] ∧
    ((next_image true (QTState.mk ["a.png", "b.png"] 0 2 false 90)).scale = 1 ∧
      (next_image true (QTState.mk ["a.png", "b.png"] 0 2 false 90)).rotationDeg =
        (QTState.mk ["a.png", "b.png"] 0 2 false 90).rotationDeg ∧
      (prev_image true (QTState.mk ["a.png", "b.png"] 0 2 false 90)).scale = 1 ∧
      (prev_image true (QTState.mk ["a.png", "b.png"] 0 2 false 90)).rotationDeg =
        (QTState.mk ["a.png", "b.png"] 0 2 false 90).rotationDeg) :=
  ⟨by decide, nav_resets_scale_not_rotation _ (by decide)⟩

/-- C1 counterexample: with rotation 90° and two images loaded, `next()`
leaves `rotation_deg` at 90, not 0, refuting the claim that navigation
resets `rotationDegrees` to its default. -/
theorem nav_keeps_rotation_cex :
    (next_image true (QTState.mk ["a.png", "b.png"] 0 1 false 90)).rotationDeg ≠ 0 := by
  decide

/-- C2 (corrected): starting from a valid cursor, `after_delete` shortens the
list by one and clamps the cursor into `[0, newLength-1]` when the new list
is non-empty; when the set becomes empty the cursor is clamped to `0`
(`max(0, min(i, -1))`), not to the `-1` sentinel. -/
theorem after_delete_clamps (st : QTState) (d : Bool) (h0 : 0 ≤ st.index)
    (h1 : st.index < (st.files.length : Int)) :
    (after_delete d st).files.length = st.files.length - 1 ∧
    ((after_delete d st).files = [] → (after_delete d st).index = 0) ∧
    ((after_delete d st).files ≠ [] →
      0 ≤ (after_delete d st).index ∧
      (after_delete d st).index < ((after_delete d st).files.length : Int)) := by
  have hk : st.index.toNat < st.files.length := by omega
  have hlen : (st.files.eraseIdx st.index.toNat).length = st.files.length - 1 := by
    rw [List.length_eraseIdx]
    simp [hk]
  unfold after_delete show_current
  dsimp only
  by_cases hemp : (st.files.eraseIdx st.index.toNat).isEmpty
  · have hnil : st.files.eraseIdx st.index.toNat = [] := List.isEmpty_iff.mp hemp
    rw [hnil] at hlen ⊢
    rw [if_pos List.isEmpty_nil]
    dsimp only
    refine ⟨by omega, fun _ => ?_, fun hcon => absurd rfl hcon⟩
    simp only [List.length_nil]
    omega
  · have hnnil : st.files.eraseIdx st.index.toNat ≠ [] := by
      intro hx
      rw [hx] at hemp
      exact hemp rfl
    have hpos : 0 < (st.files.eraseIdx st.index.toNat).length :=
      List.length_pos.mpr hnnil
    rw [if_neg hemp]
    cases d
    · rw [if_neg Bool.false_ne_true]
      dsimp only
      refine ⟨hlen, fun hx => absurd hx hnnil, fun _ => ⟨by omega, by omega⟩⟩
    · rw [if_pos rfl]
      dsimp only
      refine ⟨hlen, fun hx => absurd hx hnnil, fun _ => ⟨by omega, by omega⟩⟩

/-- C2 witness: deleting index 1 of a two-image set keeps the cursor in range. -/
theorem after_delete_clamps_w :
    (0 : Int) ≤ (QTState.mk ["a.png", "b.png"] 1 1 false 0).index ∧
    (QTState.mk ["a.png", "b.png"] 1 1 false 0).index <
      ((QTState.mk ["a.png", "b.png"] 1 1 false 0).files.length : Int) ∧
    ((after_delete true (QTState.mk ["a.png", "b.png"] 1 1 false 0)).files.length =
        (QTState.mk ["a.png", "b.png"] 1 1 false 0).files.length - 1 ∧
      ((after_delete true (QTState.mk ["a.png", "b.png"] 1 1 false 0)).files = [] →
        (after_delete true (QTState.mk ["a.png", "b.png"] 1 1 false 0)).index = 0) ∧
      ((after_delete true (QTState.mk ["a.png", "b.png"] 1 1 false 0)).files ≠ [] →
        0 ≤ (after_delete true (QTState.mk ["a.png", "b.png"] 1 1 false 0)).index ∧
        (after_delete true (QTState.mk ["a.png", "b.png"] 1 1 false 0)).index <
          ((after_delete true (QTState.mk ["a.png", "b.png"] 1 1 false 0)).files.length : Int))) :=
  ⟨by decide, by decide, after_delete_clamps _ true (by decide) (by decide)⟩

/-- C2 counterexample: deleting the only image empties the set but leaves the
cursor at `0`, not at the `-1` empty sentinel the claim requires. -/
theorem after_delete_singleton_cex :
    (after_delete true (QTState.mk ["a.png"] 0 1 false 0)).files = [] ∧
    (after_delete true (QTState.mk ["a.png"] 0 1 false 0)).index ≠ -1 :=
  ⟨by decide, by decide⟩

/-- C3: evaluating the file branch of `open_path` at the failing input.
Opening the existing file `a.png` prepends it to its parent directory's
listing, which already contains it, so the resulting `ImageSet` holds the
path twice, violating the no-duplicates invariant. -/
theorem open_explicit_duplicate :
    openExplicitFiles "a.png" ["a.png", "b.txt"] = ["a.png", "a.png"] ∧
    ¬ (openExplicitFiles "a.png" ["a.png", "b.txt"]).Nodup :=
  ⟨by decide, by decide⟩

/-- C4 (confirmed): `loadDirectory` output is sorted by the natural order
induced by `human_sort_key` (digit runs by integer value, other runs
lowercased, a proper leading subsequence first), is a permutation of the
supported-extension entries, and sends the spec's example listing to the
expected order. -/
theorem loadDirectory_natural_sorted :
    (∀ listing : List Name,
      List.Sorted (fun a b => humanLe a b = true) (loadDirectory listing) ∧
      (loadDirectory listing).Perm (listing.filter isSupported)) ∧
    loadDirectory ["img2.png", "img10.png", "img1.png"] =
      ["img1.png", "img2.png", "img10.png"] := by
  constructor
  · intro listing
    constructor
    · haveI ht : IsTotal Name (fun a b => humanLe a b = true) := ⟨humanLe_total⟩
      haveI htr : IsTrans Name (fun a b => humanLe a b = true) := ⟨humanLe_trans⟩
      exact List.Pairwise.filter isSupported (List.sorted_insertionSort _ listing)
    · exact List.Perm.filter isSupported (List.perm_insertionSort _ listing)
  · decide

/-- C5 (corrected): the `main.py` fit computation is
`min(W/w, H/h, 1.0)`: it never exceeds `1.0` and agrees with `min(W/w, H/h)`
exactly when that minimum is at most `1`; for a 4000×3000 image in an
800×600 viewport it is exactly `0.2`.  The unconditional equality with
`min(W/w, H/h)` claimed does not hold (see the counterexample). -/
theorem fitScale_spec (W H w h : ℚ) (hW : 0 < W) (hH : 0 < H) (hw : 0 < w) (hh : 0 < h) :
    fitScale W H w h ≤ 1 ∧
    (min (W / w) (H / h) ≤ 1 → fitScale W H w h = min (W / w) (H / h)) ∧
    fitScale 800 600 4000 3000 = 1 / 5 := by
  refine ⟨min_le_right _ _, fun hm => min_eq_left hm, ?_⟩
  norm_num [fitScale]

/-- C5 witness: the fit scale at the spec's 800×600 / 4000×3000 example. -/
theorem fitScale_spec_w :
    (0 : ℚ) < 800 ∧
    fitScale 800 600 4000 3000 = min ((800 : ℚ) / 4000) ((600 : ℚ) / 3000) ∧
    fitScale 800 600 4000 3000 = 1 / 5 :=
  ⟨by norm_num,
    (fitScale_spec 800 600 4000 3000 (by norm_num) (by norm_num) (by norm_num)
        (by norm_num)).2.1 (by norm_num),
    (fitScale_spec 800 600 4000 3000 (by norm_num) (by norm_num) (by norm_num)
        (by norm_num)).2.2⟩

/-- C5 counterexample: a 400×300 image in an 800×600 viewport has
`min(W/w, H/h) = 2`, but the computed scale is capped at `1`, so the
claimed equality with `min(W/w, H/h)` fails. -/
theorem fitScale_upscale_cex :
    fitScale 800 600 400 300 ≠ min ((800 : ℚ) / 400) ((600 : ℚ) / 300) := by
  norm_num [fitScale]

/-- C6 (confirmed): `apply_zoom` multiplies the scale by the factor, clamps
it into `[0.05, 20.0]`, clears `fit_to_window`, and changes nothing else. -/
theorem apply_zoom_spec (st : QTState) (f : ℚ) (hf : 0 < f) :
    (apply_zoom f st).scale = max (1 / 20) (min (st.scale * f) 20) ∧
    (apply_zoom f st).fitToWindow = false ∧
    (apply_zoom f st).files = st.files ∧
    (apply_zoom f st).index = st.index ∧
    (apply_zoom f st).rotationDeg = st.rotationDeg :=
  ⟨rfl, rfl, rfl, rfl, rfl⟩

/-- C6 witness: zooming by 2 from scale 3 at a concrete state. -/
theorem apply_zoom_spec_w :
    (0 : ℚ) < 2 ∧
    ((apply_zoom 2 (QTState.mk ["a.png"] 0 3 true 0)).scale =
        max (1 / 20) (min ((QTState.mk ["a.png"] 0 3 true 0).scale * 2) 20) ∧
      (apply_zoom 2 (QTState.mk ["a.png"] 0 3 true 0)).fitToWindow = false ∧
      (apply_zoom 2 (QTState.mk ["a.png"] 0 3 true 0)).files =
        (QTState.mk ["a.png"] 0 3 true 0).files ∧
      (apply_zoom 2 (QTState.mk ["a.png"] 0 3 true 0)).index =
        (QTState.mk ["a.png"] 0 3 true 0).index ∧
      (apply_zoom 2 (QTState.mk ["a.png"] 0 3 true 0)).rotationDeg =
        (QTState.mk ["a.png"] 0 3 true 0).rotationDeg) :=
  ⟨by norm_num, apply_zoom_spec _ 2 (by norm_num)⟩

/-- C7 (corrected): in the `pictureQT.py` variant, `toggle_fit` flips only
the `fit_to_window` flag and leaves the stored scale (and everything else)
unchanged.  The claim fails for the cited `main.py` fit handler, which
overwrites the scale with `1.0` (see the counterexample). -/
theorem toggle_fit_preserves_scale (st : QTState) :
    (toggle_fit st).scale = st.scale ∧
    (toggle_fit st).fitToWindow = !st.fitToWindow ∧
    (toggle_fit st).files = st.files ∧
    (toggle_fit st).index = st.index ∧
    (toggle_fit st).rotationDeg = st.rotationDeg :=
  ⟨rfl, rfl, rfl, rfl, rfl⟩

/-- C7 counterexample: `on_fit` of `src/main.py` at scale 2 resets the
stored scale to 1, so the fit operation does not leave `scaleFactor`
unchanged in that cited variant. -/
theorem gtk_fit_changes_scale_cex :
    (gtk_on_fit (GtkState.mk ["a.png"] 0 2)).scale ≠ (GtkState.mk ["a.png"] 0 2).scale := by
  norm_num [gtk_on_fit]

/-- C8 (confirmed): from any valid cursor on a non-empty set, `next()` then
`previous()` returns the cursor to its original value, wrapping modulo the
set length. -/
theorem prev_next_inverse (st : QTState) (d : Bool) (h : st.files ≠ [])
    (h0 : 0 ≤ st.index) (h1 : st.index < (st.files.length : Int)) :
    (prev_image d (next_image d st)).index = st.index := by
  have hne : st.files.isEmpty = false := List.isEmpty_eq_false.mpr h
  have hlen0 : st.files.length ≠ 0 := by
    intro hx
    exact h (List.length_eq_zero.mp hx)
  have hn : (0 : Int) < (st.files.length : Int) := by omega
  unfold next_image prev_image show_current
  cases d <;> simp [hne] <;>
    exact wrap_prev_next (st.files.length : Int) st.index hn h0 h1

/-- C8 witness: wrap-around round trip at the last index of a three-image set. -/
theorem prev_next_inverse_w :
    (QTState.mk ["a.png", "b.png", "c.png"] 2 1 false 0).files ≠ [] ∧
    (0 : Int) ≤ (QTState.mk ["a.png", "b.png", "c.png"] 2 1 false 0).index ∧
    (QTState.mk ["a.png", "b.png", "c.png"] 2 1 false 0).index <
      ((QTState.mk ["a.png", "b.png", "c.png"] 2 1 false 0).files.length : Int) ∧
    (prev_image false (next_image false (QTState.mk ["a.png", "b.png", "c.png"] 2 1 false 0))).index =
      (QTState.mk ["a.png", "b.png", "c.png"] 2 1 false 0).index :=
  ⟨by decide, by decide, by decide, prev_next_inverse _ false (by decide) (by decide) (by decide)⟩

/-- C9 (confirmed): `rotate` adds the delta (negative included) and
normalizes into `[0, 360)`; four `rotate(90)` return the rotation to its
starting value, in particular to `0` from `0`. -/
theorem rotate_spec (st : QTState) (d : Int) (h0 : 0 ≤ st.rotationDeg)
    (h1 : st.rotationDeg < 360) :
    (rotate d st).rotationDeg = (st.rotationDeg + d) % 360 ∧
    0 ≤ (rotate d st).rotationDeg ∧ (rotate d st).rotationDeg < 360 ∧
    (rotate 90 (rotate 90 (rotate 90 (rotate 90 st)))).rotationDeg = st.rotationDeg := by
  refine ⟨rfl, Int.emod_nonneg _ (by omega), Int.emod_lt_of_pos _ (by omega), ?_⟩
  simp only [rotate]
  omega

/-- C9 witness: rotating by -90 from 270° lands on 180°, inside `[0, 360)`. -/
theorem rotate_spec_w :
    (0 : Int) ≤ (QTState.mk ["a.png"] 0 1 false 270).rotationDeg ∧
    ((rotate (-90) (QTState.mk ["a.png"] 0 1 false 270)).rotationDeg =
        ((QTState.mk ["a.png"] 0 1 false 270).rotationDeg + -90) % 360 ∧
      0 ≤ (rotate (-90) (QTState.mk ["a.png"] 0 1 false 270)).rotationDeg ∧
      (rotate (-90) (QTState.mk ["a.png"] 0 1 false 270)).rotationDeg < 360 ∧
      (rotate 90 (rotate 90 (rotate 90 (rotate 90 (QTState.mk ["a.png"] 0 1 false 270))))).rotationDeg =
        (QTState.mk ["a.png"] 0 1 false 270).rotationDeg) :=
  ⟨by decide, rotate_spec _ (-90) (by decide) (by decide)⟩

/-- C10 (confirmed): every position of a `human_sort_key` key holds a string
element exactly at the even positions and an integer element exactly at the
odd ones, so comparing two keys positionally never meets an integer against
a string. -/
theorem key_alternates (s : Name) (i : Nat) (h : i < (human_sort_key s).length) :
    ((human_sort_key s).get ⟨i, h⟩).isStr = decide (i % 2 = 0) := by
  revert h
  rw [key_eq_canon]
  intro h
  exact canonKey_get _ _ i h

/-- C10 witness: position 1 of the key of "img12.png" is the integer run 12. -/
theorem key_alternates_w :
    1 < (human_sort_key "img12.png").length ∧
    ((human_sort_key "img12.png").get ⟨1, by decide⟩).isStr = decide (1 % 2 = 0) :=
  ⟨by decide, key_alternates "img12.png" 1 (by decide)⟩

end Picture
